import Mathlib

set_option maxHeartbeats 1000000

/-!
Shallow embedding of the caching and incremental-sync core of the
respec-github-apis repository: the TTLCache family (utils/cache.ts),
the commit-history incremental sync (commits.ts) and the issue-commentors
sync entry path (issue-commentors.ts).

Time is modelled as milliseconds, a natural number (JavaScript Date.now
is a non-negative integer count of milliseconds).  The JavaScript Map is
modelled as an association list with Map.get / Map.set semantics
(first binding wins; set replaces in place or appends).  A value that in
JavaScript may be null or undefined is modelled by the JSVal type, which
keeps the two distinct, since the code distinguishes them.
-/

/-- A JavaScript value of type V that may also be null or undefined.
The two absent values are kept distinct because the source distinguishes
them (TTLCache.get returns null; getIssueCommentors compares against
undefined). -/
inductive JSVal (V : Type) where
  | val (v : V)
  | null
  | undefined
deriving DecidableEq

/-- Whether a JSVal is the JavaScript null. -/
def JSVal.isNull {V : Type} : JSVal V → Bool
  | JSVal.null => true
  | _ => false

/-- Number.MAX_SAFE_INTEGER, the default TTL in utils/cache.ts. -/
def maxSafeInteger : Nat := 2 ^ 53 - 1

/-- CacheEntry from utils/cache.ts: a value together with its insertion
timestamp. -/
structure CacheEntry (V : Type) where
  time : Nat
  value : V
deriving DecidableEq

/-- Map.prototype.get on an association list: the first binding of the
key, if any. -/
def mapGet {K α : Type} [DecidableEq K] : List (K × α) → K → Option α
  | [], _ => none
  | (k', a) :: rest, k => if k' = k then some a else mapGet rest k

/-- Map.prototype.set on an association list: replace the first binding
in place, keeping the insertion order, or append a new binding at the
end. -/
def mapSet {K α : Type} [DecidableEq K] : List (K × α) → K → α → List (K × α)
  | [], k, a => [(k, a)]
  | (k', a') :: rest, k, a =>
      if k' = k then (k, a) :: rest else (k', a') :: mapSet rest k a

/-- TTLCache from utils/cache.ts: a map from keys to timestamped entries,
a TTL in milliseconds, and an optional name identifying the durable
storage slot. -/
structure TTLCache (K V : Type) where
  cache : List (K × CacheEntry V)
  ttl : Nat
  name : Option String := none

/-- TTLCache.isBusted: the entry aged past the TTL at the given clock
reading (Date.now() - time > this.ttl). -/
def TTLCache.isBusted {K V : Type} (c : TTLCache K V) (now time : Nat) : Bool :=
  decide (now - time > c.ttl)

/-- TTLCache.set: insert or replace the entry with the current time. -/
def TTLCache.set {K V : Type} [DecidableEq K] (c : TTLCache K V) (now : Nat)
    (key : K) (value : V) : TTLCache K V :=
  { c with cache := mapSet c.cache key { time := now, value := value } }

/-- TTLCache.get: null if the key is absent; null if the entry is busted
and stale reads were not requested; the stored value otherwise. -/
def TTLCache.get {K V : Type} [DecidableEq K] (c : TTLCache K V) (now : Nat)
    (key : K) (stale : Bool) : JSVal V :=
  match mapGet c.cache key with
  | none => JSVal.null
  | some e => if c.isBusted now e.time && !stale then JSVal.null else JSVal.val e.value

/-- TTLCache.has: get is not null. -/
def TTLCache.has {K V : Type} [DecidableEq K] [DecidableEq V] (c : TTLCache K V) (now : Nat)
    (key : K) (stale : Bool) : Bool :=
  decide (c.get now key stale ≠ JSVal.null)

/-- TTLCache.invalidate: delete every busted entry. -/
def TTLCache.invalidate {K V : Type} (c : TTLCache K V) (now : Nat) : TTLCache K V :=
  { c with cache := c.cache.filter fun p => !(c.isBusted now p.2.time) }

/-- TTLCache.data getter: the non-busted entries, in map order. -/
def TTLCache.data {K V : Type} (c : TTLCache K V) (now : Nat) :
    List (K × CacheEntry V) :=
  c.cache.filter fun p => !(c.isBusted now p.2.time)

/-- TTLCache.dump: the serialized durable snapshot, which is exactly the
data getter (non-stale entries only). -/
def TTLCache.dump {K V : Type} (c : TTLCache K V) (now : Nat) :
    List (K × CacheEntry V) :=
  c.data now

/-- TTLCache.load: stored is the parsed durable snapshot, or none when
the read or parse failed (the catch branch, which leaves entries as the
empty list).  Each stored pair is inserted with Map.set; the cache itself
is the return value. -/
def TTLCache.load {K V : Type} [DecidableEq K] (c : TTLCache K V)
    (stored : Option (List (K × CacheEntry V))) : TTLCache K V :=
  let entries := match stored with
    | some es => es
    | none => ([] : List (K × CacheEntry V))
  { c with cache := entries.foldl (fun m p => mapSet m p.1 p.2) c.cache }

/-- The hit/miss counter pair of TTLCacheWithStats. -/
structure Stats where
  hit : Nat
  miss : Nat
deriving DecidableEq

/-- TTLCacheWithStats from utils/cache.ts: a TTLCache plus hit/miss
counters.  Inheritance is modelled as a wrapped base cache. -/
structure TTLCacheWithStats (K V : Type) where
  base : TTLCache K V
  _stats : Stats

/-- TTLCacheWithStats.get: call the base get, then count a hit when the
returned value is not null, a miss otherwise. -/
def TTLCacheWithStats.get {K V : Type} [DecidableEq K]
    (c : TTLCacheWithStats K V) (now : Nat) (key : K) (stale : Bool) :
    JSVal V × TTLCacheWithStats K V :=
  let value := c.base.get now key stale
  if !value.isNull then
    (value, { c with _stats := { hit := c._stats.hit + 1, miss := c._stats.miss } })
  else
    (value, { c with _stats := { hit := c._stats.hit, miss := c._stats.miss + 1 } })

/-- TTLCacheWithStats.stats getter. -/
def TTLCacheWithStats.stats {K V : Type} (c : TTLCacheWithStats K V) : Stats :=
  c._stats

/-- TTLCacheWithStats.clearStats: reset both counters to zero. -/
def TTLCacheWithStats.clearStats {K V : Type} (c : TTLCacheWithStats K V) :
    TTLCacheWithStats K V :=
  { c with _stats := { hit := 0, miss := 0 } }

/-- TTLCacheWithStats.setTTL. -/
def TTLCacheWithStats.setTTL {K V : Type} (c : TTLCacheWithStats K V)
    (val : Nat) : TTLCacheWithStats K V :=
  { c with base := { c.base with ttl := val } }

/-- Run a sequence of get calls, each given as (clock reading, key,
stale flag), threading the stats state. -/
def runGets {K V : Type} [DecidableEq K] :
    TTLCacheWithStats K V → List (Nat × K × Bool) → TTLCacheWithStats K V
  | c, [] => c
  | c, g :: gs => runGets (TTLCacheWithStats.get c g.1 g.2.1 g.2.2).2 gs

/-- ImmutableCache from utils/cache.ts: super(TTL, undefined, name) with
TTL the default Number.MAX_SAFE_INTEGER and a string name (so no
auto-evict timer is installed). -/
def mkImmutableCache (K V : Type) (name : String) : TTLCache K V :=
  { cache := [], ttl := maxSafeInteger, name := some name }

/-- A fresh cache of the same ttl and name as c, loaded from the dump of
c taken at the given time. -/
def loadedCache {K V : Type} [DecidableEq K] (c : TTLCache K V) (now : Nat) :
    TTLCache K V :=
  TTLCache.load { cache := [], ttl := c.ttl, name := c.name } (some (c.dump now))

/-- The author.user record of a commit (commits.ts). -/
structure CommitUser where
  login : String
  name : String
deriving DecidableEq

/-- The author record of a commit (commits.ts). -/
structure CommitAuthor where
  user : CommitUser
deriving DecidableEq

/-- Commit from commits.ts. -/
structure Commit where
  messageHeadline : String
  abbreviatedOid : String
  committedDate : String
  author : CommitAuthor
deriving DecidableEq

/-- pageInfo of one GraphQL history page (commits.ts). -/
structure PageInfo where
  endCursor : String
  hasNextPage : Bool
deriving DecidableEq

/-- One raw history page as returned by the remote fetcher: the nodes
and the pageInfo of repository.object.history. -/
structure HistoryPage where
  nodes : List Commit
  pageInfo : PageInfo
deriving DecidableEq

/-- The value getCommitsSince returns for one page. -/
structure SinceResult where
  commits : List Commit
  cursor : Option String
deriving DecidableEq

/-- The page-processing part of getCommitsSince (commits.ts): on the
final page (hasNextPage false) the last node — the commit at the since
boundary — is popped; the cursor is the endCursor while more pages
remain, undefined (none) otherwise. -/
def getCommitsSince (page : HistoryPage) : SinceResult :=
  { commits := if page.pageInfo.hasNextPage then page.nodes else page.nodes.dropLast
  , cursor := if page.pageInfo.hasNextPage then some page.pageInfo.endCursor else none }

/-- The do/while pagination loop of getCommits: pages are the successive
fetcher responses; the loop stops after the first page whose cursor is
undefined.  The result is the processed commit list of each executed
iteration, in order. -/
def commitsFetchLoop : List HistoryPage → List (List Commit)
  | [] => []
  | page :: rest =>
      let r := getCommitsSince page
      r.commits :: (match r.cursor with
        | some _ => commitsFetchLoop rest
        | none => [])

/-- The since field update of getCommits: newCacheEntry.since is set
from the first commit of the first iteration that produced a non-empty
commit list, and stays the empty string otherwise. -/
def firstSince : List (List Commit) → String
  | [] => ""
  | [] :: rest => firstSince rest
  | (c :: _) :: _ => c.committedDate

/-- CacheEntry from commits.ts: the sync-state record of one key. -/
structure CommitEntry where
  since : String
  commits : List Commit
deriving DecidableEq

/-- The observable outcome of one getCommits pass: the commits yielded
to the caller, in order, and the entry written through cache.set and
cache.dump, or none when no write happened. -/
structure CommitsResult where
  yielded : List Commit
  committed : Option CommitEntry
deriving DecidableEq

/-- getCommits (commits.ts) as a function of the cached sync-state for
the key (cached), the bootstrap since date a cold start would resolve
(bootSince), and the successive remote pages.  The cached commits are
yielded first, then each processed page; the new entry is committed only
when hasNewData (cold, or the new since differs from the cached one) and
the new since is non-empty. -/
def getCommits (cached : Option CommitEntry) (bootSince : String)
    (pages : List HistoryPage) : CommitsResult :=
  let c0 := match cached with
    | some e => e
    | none => { since := bootSince, commits := [] }
  let processed := commitsFetchLoop pages
  let newCommits := processed.flatten
  let newSince := firstSince processed
  let entry : CommitEntry := { since := newSince, commits := c0.commits ++ newCommits }
  { yielded := c0.commits ++ newCommits
  , committed :=
      if (cached = none ∨ newSince ≠ c0.since) ∧ newSince ≠ "" then some entry else none }

/-- comment.user from issue-commentors.ts. -/
structure CommentUser where
  login : String
deriving DecidableEq

/-- Comment from issue-commentors.ts. -/
structure Comment where
  user : CommentUser
  created_at : String
  author_association : String
deriving DecidableEq

/-- PersistantCacheEntry from issue-commentors.ts. -/
structure PersistantCacheEntry where
  commentors : List String
  endpoint : String
deriving DecidableEq

/-- The inner comment loop of getIssueCommentors over one page: yield
each login not yet in the seen set and add it.  Returns the logins
yielded from this page and the updated seen set (in insertion order, as
a JavaScript Set iterates). -/
def yieldNewLogins : List String → List Comment → List String × List String
  | seen, [] => ([], seen)
  | seen, c :: cs =>
      if c.user.login ∈ seen then
        yieldNewLogins seen cs
      else
        let r := yieldNewLogins (seen ++ [c.user.login]) cs
        (c.user.login :: r.1, r.2)

/-- The page loop of getIssueCommentors: process each remote page in
order, threading the seen set. -/
def commentorsPages : List String → List (List Comment) → List String × List String
  | seen, [] => ([], seen)
  | seen, page :: rest =>
      let r := yieldNewLogins seen page
      let r2 := commentorsPages r.2 rest
      (r.1 ++ r2.1, r2.2)

/-- The resumed-sync core of getIssueCommentors (the code from the
persistent-cache read onward): the previously persisted commentors are
yielded first, then the remote pages are drained with the seen-set
dedup.  Returns the full yielded sequence and the final unique list
(the value stored back into the in-memory cache). -/
def getIssueCommentorsCore (persisted : Option PersistantCacheEntry)
    (defaultEndpoint : String) (pages : List (List Comment)) :
    List String × List String :=
  let p0 := persisted.getD { commentors := [], endpoint := defaultEndpoint }
  let r := commentorsPages p0.commentors pages
  (p0.commentors ++ r.1, r.2)

/-- What the entry of getIssueCommentors does with the in-memory cache
read: return the cached list, throw a TypeError, or fall through to the
durable-cache path. -/
inductive CommentorsOutcome where
  | fastPath (items : List String)
  | typeError
  | proceed
deriving DecidableEq

/-- The effect of the statement yield* cached: iterating null or
undefined with yield* throws a TypeError. -/
def yieldStarJS : JSVal (List String) → CommentorsOutcome
  | JSVal.val xs => CommentorsOutcome.fastPath xs
  | _ => CommentorsOutcome.typeError

/-- The guard at the top of getIssueCommentors: if (cached !==
undefined) { yield* cached; return; } — only an undefined read falls
through to the durable cache and the remote fetch. -/
def getIssueCommentorsEntry (cached : JSVal (List String)) : CommentorsOutcome :=
  if cached = JSVal.undefined then CommentorsOutcome.proceed else yieldStarJS cached

/-! ### Association-list lemmas for the Map model -/

theorem mapGet_mapSet_self {K α : Type} [DecidableEq K]
    (m : List (K × α)) (k : K) (a : α) :
    mapGet (mapSet m k a) k = some a := by
  induction m with
  | nil => simp [mapSet, mapGet]
  | cons p rest ih =>
      obtain ⟨k', a'⟩ := p
      by_cases h : k' = k
      · subst h
        simp [mapSet, mapGet]
      · simp [mapSet, mapGet, h, ih]

theorem mapGet_eq_none_of_not_mem {K α : Type} [DecidableEq K]
    (m : List (K × α)) (k : K) (h : k ∉ m.map Prod.fst) :
    mapGet m k = none := by
  induction m with
  | nil => rfl
  | cons p rest ih =>
      obtain ⟨k', a'⟩ := p
      simp only [List.map_cons, List.mem_cons] at h
      push_neg at h
      have hne : ¬ k' = k := fun hc => h.1 hc.symm
      simp [mapGet, hne, ih h.2]

theorem mapSet_keys {K α : Type} [DecidableEq K]
    (m : List (K × α)) (k : K) (a : α) :
    (mapSet m k a).map Prod.fst =
      if k ∈ m.map Prod.fst then m.map Prod.fst else m.map Prod.fst ++ [k] := by
  induction m with
  | nil => simp [mapSet]
  | cons p rest ih =>
      obtain ⟨k', a'⟩ := p
      by_cases h : k' = k
      · subst h
        simp [mapSet]
      · have h' : ¬ k = k' := fun hc => h hc.symm
        simp only [mapSet, if_neg h, List.map_cons, ih, List.mem_cons, h']
        by_cases hm : k ∈ rest.map Prod.fst
        · simp [hm]
        · simp [hm]

theorem mapSet_keys_nodup {K α : Type} [DecidableEq K]
    (m : List (K × α)) (k : K) (a : α) (h : (m.map Prod.fst).Nodup) :
    ((mapSet m k a).map Prod.fst).Nodup := by
  rw [mapSet_keys]
  by_cases hm : k ∈ m.map Prod.fst
  · simpa [hm] using h
  · simp only [if_neg hm]
    simp [List.nodup_append, h, hm]

theorem mapGet_filter_pos {K α : Type} [DecidableEq K]
    (m : List (K × α)) (q : α → Bool) (k : K) (a : α)
    (hget : mapGet m k = some a) (hq : q a = true) :
    mapGet (m.filter fun p => q p.2) k = some a := by
  induction m with
  | nil => simp [mapGet] at hget
  | cons p rest ih =>
      obtain ⟨k', a'⟩ := p
      by_cases h : k' = k
      · subst h
        simp only [mapGet, if_pos, Option.some.injEq] at hget
        subst hget
        rw [List.filter_cons]
        simp [hq, mapGet]
      · simp only [mapGet, if_neg h] at hget
        rw [List.filter_cons]
        split
        · simp [mapGet, h, ih hget]
        · exact ih hget

theorem mapGet_filter_neg {K α : Type} [DecidableEq K]
    (m : List (K × α)) (q : α → Bool) (k : K) (a : α)
    (hnd : (m.map Prod.fst).Nodup)
    (hget : mapGet m k = some a) (hq : q a = false) :
    mapGet (m.filter fun p => q p.2) k = none := by
  induction m with
  | nil => simp [mapGet] at hget
  | cons p rest ih =>
      obtain ⟨k', a'⟩ := p
      simp only [List.map_cons, List.nodup_cons] at hnd
      by_cases h : k' = k
      · subst h
        simp only [mapGet, if_pos, Option.some.injEq] at hget
        subst hget
        rw [List.filter_cons]
        have hrest : mapGet (rest.filter fun p => q p.2) k' = none := by
          apply mapGet_eq_none_of_not_mem
          intro hc
          exact hnd.1 (((List.filter_sublist rest).map Prod.fst).subset hc)
        simp [hq, hrest]
      · simp only [mapGet, if_neg h] at hget
        rw [List.filter_cons]
        split
        · simp [mapGet, h, ih hnd.2 hget]
        · exact ih hnd.2 hget

theorem mapSet_eq_append_of_none {K α : Type} [DecidableEq K]
    (m : List (K × α)) (k : K) (a : α) (h : mapGet m k = none) :
    mapSet m k a = m ++ [(k, a)] := by
  induction m with
  | nil => rfl
  | cons p rest ih =>
      obtain ⟨k', a'⟩ := p
      by_cases hk : k' = k
      · subst hk
        simp [mapGet] at h
      · simp only [mapGet, if_neg hk] at h
        simp [mapSet, hk, ih h]

theorem mapGet_append_of_none_left {K α : Type} [DecidableEq K]
    (m m2 : List (K × α)) (k : K) (h : mapGet m k = none) :
    mapGet (m ++ m2) k = mapGet m2 k := by
  induction m with
  | nil => rfl
  | cons p rest ih =>
      obtain ⟨k', a'⟩ := p
      by_cases hk : k' = k
      · subst hk
        simp [mapGet] at h
      · simp only [mapGet, if_neg hk] at h
        simp [mapGet, hk, ih h]

theorem foldl_mapSet_eq_append {K α : Type} [DecidableEq K]
    (L : List (K × α)) (acc : List (K × α))
    (hnd : (L.map Prod.fst).Nodup)
    (hdisj : ∀ p ∈ L, mapGet acc p.1 = none) :
    L.foldl (fun m p => mapSet m p.1 p.2) acc = acc ++ L := by
  induction L generalizing acc with
  | nil => simp
  | cons p rest ih =>
      simp only [List.map_cons, List.nodup_cons] at hnd
      have hstep : mapSet acc p.1 p.2 = acc ++ [p] := by
        rw [mapSet_eq_append_of_none acc p.1 p.2 (hdisj p (List.mem_cons_self p rest))]
      have hdisj' : ∀ q ∈ rest, mapGet (acc ++ [p]) q.1 = none := by
        intro q hq
        rw [mapGet_append_of_none_left _ _ _ (hdisj q (List.mem_cons_of_mem p hq))]
        have hne : p.1 ≠ q.1 := by
          intro hc
          exact hnd.1 (hc ▸ List.mem_map_of_mem Prod.fst hq)
        simp [mapGet, hne]
      calc (p :: rest).foldl (fun m q => mapSet m q.1 q.2) acc
          = rest.foldl (fun m q => mapSet m q.1 q.2) (acc ++ [p]) := by
            simp [List.foldl_cons, hstep]
        _ = (acc ++ [p]) ++ rest := ih (acc ++ [p]) hnd.2 hdisj'
        _ = acc ++ p :: rest := by simp

/-! ### C1, C2, C4, C9: TTLCache behaviour -/

/-- C1 (TTL monotonicity): after set(k, v) at time t, a plain get(k) at
time t' returns v whenever t' - t is at most the TTL, and returns
null whenever t' - t exceeds the TTL. -/
theorem ttl_monotonicity {K V : Type} [DecidableEq K]
    (c : TTLCache K V) (k : K) (v : V) (t t' : Nat) (hle : t ≤ t') :
    (t' - t ≤ c.ttl → (c.set t k v).get t' k false = JSVal.val v) ∧
    (c.ttl < t' - t → (c.set t k v).get t' k false = JSVal.null) := by
  have hget : mapGet (c.set t k v).cache k = some { time := t, value := v } := by
    simp [TTLCache.set, mapGet_mapSet_self]
  have httlset : (TTLCache.set c t k v).ttl = c.ttl := rfl
  constructor
  · intro h
    simp [TTLCache.get, hget, TTLCache.isBusted, httlset, Nat.not_lt.mpr h]
  · intro h
    simp [TTLCache.get, hget, TTLCache.isBusted, httlset, h]

/-- Witness for C1 at TTL 1000, set at t = 0, reads at 500 and 1500. -/
theorem ttl_monotonicity_witness :
    ((TTLCache.set (⟨[], 1000, none⟩ : TTLCache String Nat) 0 "x" 1).get 500 "x" false
        = JSVal.val 1) ∧
    ((TTLCache.set (⟨[], 1000, none⟩ : TTLCache String Nat) 0 "x" 1).get 1500 "x" false
        = JSVal.null) :=
  ⟨(ttl_monotonicity ⟨[], 1000, none⟩ "x" 1 0 500 (by decide)).1 (by decide),
   (ttl_monotonicity ⟨[], 1000, none⟩ "x" 1 0 1500 (by decide)).2 (by decide)⟩

/-- C2 (stale-read override and eviction): after an entry expires, a
stale-allowed get still returns the last-set value; once invalidate runs
at a time when the age of the entry exceeds the TTL, the entry is removed and
even a stale-allowed get returns null, at every later read time. -/
theorem stale_read_until_invalidate {K V : Type} [DecidableEq K]
    (c : TTLCache K V) (k : K) (v : V) (t tr ti : Nat)
    (hnd : (c.cache.map Prod.fst).Nodup)
    (hr : c.ttl < tr - t) (hi : c.ttl < ti - t) :
    (c.set t k v).get tr k true = JSVal.val v ∧
    ∀ t2 : Nat, ∀ s : Bool, ((c.set t k v).invalidate ti).get t2 k s = JSVal.null := by
  have hget : mapGet (c.set t k v).cache k = some { time := t, value := v } := by
    simp [TTLCache.set, mapGet_mapSet_self]
  constructor
  · simp [TTLCache.get, hget]
  · intro t2 s
    have hkeys : (((c.set t k v).cache).map Prod.fst).Nodup := by
      simpa [TTLCache.set] using mapSet_keys_nodup c.cache k ⟨t, v⟩ hnd
    have hfilter : mapGet (((c.set t k v).cache).filter
        fun p => !((c.set t k v).isBusted ti p.2.time)) k = none :=
      mapGet_filter_neg _ (fun e => !((c.set t k v).isBusted ti e.time)) _ _
        hkeys hget (by simp [TTLCache.isBusted, TTLCache.set, hi])
    simp [TTLCache.get, TTLCache.invalidate, hfilter]

/-- Witness for C2, the end-to-end scenario of the spec: TTL 1000,
set at 0, stale read at 1500 sees the value, invalidate at 1500, stale
read at 1600 sees null. -/
theorem stale_read_until_invalidate_witness :
    ((TTLCache.set (⟨[], 1000, none⟩ : TTLCache String Nat) 0 "x" 1).get 1500 "x" true
        = JSVal.val 1) ∧
    (((TTLCache.set (⟨[], 1000, none⟩ : TTLCache String Nat) 0 "x" 1).invalidate 1500).get
        1600 "x" true = JSVal.null) :=
  ⟨(stale_read_until_invalidate ⟨[], 1000, none⟩ "x" 1 0 1500 1500
      (by decide) (by decide) (by decide)).1,
   (stale_read_until_invalidate ⟨[], 1000, none⟩ "x" 1 0 1500 1500
      (by decide) (by decide) (by decide)).2 1600 true⟩

/-- C4 (load failure is a no-op): when the durable read or parse fails
(stored is none, the catch branch), load leaves the in-memory mapping
exactly as it was and still returns the cache itself. -/
theorem load_failure_leaves_cache {K V : Type} [DecidableEq K] (c : TTLCache K V) :
    c.load none = c := rfl

/-- C9 (ImmutableCache): with the TTL fixed to Number.MAX_SAFE_INTEGER
no entry is ever stale at any representable clock reading, so invalidate
leaves the mapping unchanged and a plain get agrees with a
stale-allowed get on every key. -/
theorem immutable_cache_never_stale {K V : Type} [DecidableEq K]
    (c : TTLCache K V) (now : Nat)
    (httl : c.ttl = maxSafeInteger) (hnow : now ≤ maxSafeInteger) :
    (∀ n : String, (mkImmutableCache K V n).ttl = maxSafeInteger) ∧
    c.invalidate now = c ∧
    (∀ k : K, c.get now k false = c.get now k true) := by
  have hbust : ∀ time : Nat, c.isBusted now time = false := by
    intro time
    have hle : now - time ≤ maxSafeInteger := le_trans (Nat.sub_le now time) hnow
    simp [TTLCache.isBusted, httl, Nat.not_lt.mpr hle]
  refine ⟨fun n => rfl, ?_, ?_⟩
  · unfold TTLCache.invalidate
    have hfix : (c.cache.filter fun p => !(c.isBusted now p.2.time)) = c.cache := by
      apply List.filter_eq_self.mpr
      intro p hp
      simp [hbust]
    rw [hfix]
  · intro k
    unfold TTLCache.get
    cases h : mapGet c.cache k with
    | none => rfl
    | some e => simp [hbust]

/-- Witness for C9 on a one-entry cache with the maximal TTL. -/
theorem immutable_cache_never_stale_witness :
    ((⟨[("k", ⟨0, 7⟩)], maxSafeInteger, none⟩ : TTLCache String Nat).invalidate 100
        = (⟨[("k", ⟨0, 7⟩)], maxSafeInteger, none⟩ : TTLCache String Nat)) ∧
    ((⟨[("k", ⟨0, 7⟩)], maxSafeInteger, none⟩ : TTLCache String Nat).get 100 "k" false
        = (⟨[("k", ⟨0, 7⟩)], maxSafeInteger, none⟩ : TTLCache String Nat).get 100 "k" true) :=
  ⟨(immutable_cache_never_stale ⟨[("k", ⟨0, 7⟩)], maxSafeInteger, none⟩ 100
      rfl (by decide)).2.1,
   (immutable_cache_never_stale ⟨[("k", ⟨0, 7⟩)], maxSafeInteger, none⟩ 100
      rfl (by decide)).2.2 "k"⟩

/-! ### C3: dump/load round trip -/

theorem data_keys_nodup {K V : Type} (c : TTLCache K V) (now : Nat)
    (h : (c.cache.map Prod.fst).Nodup) :
    ((c.data now).map Prod.fst).Nodup :=
  h.sublist ((List.filter_sublist c.cache).map Prod.fst)

theorem loadedCache_cache {K V : Type} [DecidableEq K] (c : TTLCache K V) (now : Nat)
    (hnd : (c.cache.map Prod.fst).Nodup) :
    (loadedCache c now).cache = c.data now := by
  show List.foldl (fun m p => mapSet m p.1 p.2) [] (c.data now) = c.data now
  rw [foldl_mapSet_eq_append (c.data now) [] (data_keys_nodup c now hnd) (fun p _ => rfl)]
  simp

theorem get_eq_of_mapGet_some {K V : Type} [DecidableEq K] (c : TTLCache K V)
    (now : Nat) (k : K) (e : CacheEntry V) (h : mapGet c.cache k = some e) (s : Bool) :
    c.get now k s = if c.isBusted now e.time && !s then JSVal.null else JSVal.val e.value := by
  unfold TTLCache.get
  rw [h]

theorem get_eq_null_of_mapGet_none {K V : Type} [DecidableEq K] (c : TTLCache K V)
    (now : Nat) (k : K) (h : mapGet c.cache k = none) (s : Bool) :
    c.get now k s = JSVal.null := by
  unfold TTLCache.get
  rw [h]

/-- C3 (dump/load round trip): dump serializes exactly the entries that
are non-stale at dump time, so loading the dump into a fresh cache of
the same ttl and name yields a cache whose get results agree with the
original on every key holding a non-stale entry, at every read time,
while every key whose entry was stale at dump time is absent (null) in
the loaded cache. -/
theorem dump_load_roundtrip {K V : Type} [DecidableEq K] (c : TTLCache K V) (now : Nat)
    (hnd : (c.cache.map Prod.fst).Nodup) (k : K) (e : CacheEntry V)
    (hk : mapGet c.cache k = some e) :
    (c.isBusted now e.time = false →
       ∀ t : Nat, ∀ s : Bool, (loadedCache c now).get t k s = c.get t k s) ∧
    (c.isBusted now e.time = true →
       ∀ t : Nat, ∀ s : Bool, (loadedCache c now).get t k s = JSVal.null) := by
  have hcache := loadedCache_cache c now hnd
  constructor
  · intro hfresh t s
    have hpos : mapGet (c.data now) k = some e :=
      mapGet_filter_pos c.cache (fun a : CacheEntry V => !(c.isBusted now a.time)) k e
        hk (by simp [hfresh])
    rw [get_eq_of_mapGet_some (loadedCache c now) t k e (by rw [hcache]; exact hpos) s,
        get_eq_of_mapGet_some c t k e hk s]
    rfl
  · intro hstale t s
    have hneg : mapGet (c.data now) k = none :=
      mapGet_filter_neg c.cache (fun a : CacheEntry V => !(c.isBusted now a.time)) k e
        hnd hk (by simp [hstale])
    exact get_eq_null_of_mapGet_none (loadedCache c now) t k (by rw [hcache]; exact hneg) s

/-- Witness for C3: a two-entry cache at ttl 10 dumped at time 50; the
fresh entry (age 5) survives the round trip with identical get results,
the stale entry (age 50) is absent from the loaded cache. -/
theorem dump_load_roundtrip_witness :
    ((loadedCache (⟨[("a", ⟨45, 1⟩), ("b", ⟨0, 2⟩)], 10, some "n"⟩ : TTLCache String Nat) 50).get
        50 "a" false
      = (⟨[("a", ⟨45, 1⟩), ("b", ⟨0, 2⟩)], 10, some "n"⟩ : TTLCache String Nat).get 50 "a" false) ∧
    ((loadedCache (⟨[("a", ⟨45, 1⟩), ("b", ⟨0, 2⟩)], 10, some "n"⟩ : TTLCache String Nat) 50).get
        50 "b" true = JSVal.null) :=
  ⟨(dump_load_roundtrip (⟨[("a", ⟨45, 1⟩), ("b", ⟨0, 2⟩)], 10, some "n"⟩ : TTLCache String Nat)
      50 (by decide) "a" ⟨45, 1⟩ (by decide)).1 (by decide) 50 false,
   (dump_load_roundtrip (⟨[("a", ⟨45, 1⟩), ("b", ⟨0, 2⟩)], 10, some "n"⟩ : TTLCache String Nat)
      50 (by decide) "b" ⟨0, 2⟩ (by decide)).2 (by decide) 50 true⟩

/-! ### C7: boundary-commit exclusion on the final page -/

/-- C7 (boundary exclusion): getCommitsSince removes the last item of
the page exactly when the fetcher reports no further continuation
(hasNextPage false), and removes nothing from a non-final page, whose
endCursor it propagates. -/
theorem commit_boundary_pop (page : HistoryPage) :
    (page.pageInfo.hasNextPage = false →
       (getCommitsSince page).commits = page.nodes.dropLast ∧
       (getCommitsSince page).cursor = none) ∧
    (page.pageInfo.hasNextPage = true →
       (getCommitsSince page).commits = page.nodes ∧
       (getCommitsSince page).cursor = some page.pageInfo.endCursor) := by
  constructor <;> intro h <;> simp [getCommitsSince, h]

/-- Witness for C7 on a two-commit page, in both the final and the
non-final configuration. -/
theorem commit_boundary_pop_witness :
    ((getCommitsSince ⟨[⟨"m1", "a1", "d1", ⟨⟨"u", "n"⟩⟩⟩, ⟨"m2", "a2", "d2", ⟨⟨"u", "n"⟩⟩⟩],
        ⟨"cur", false⟩⟩).commits
      = [⟨"m1", "a1", "d1", ⟨⟨"u", "n"⟩⟩⟩]) ∧
    ((getCommitsSince ⟨[⟨"m1", "a1", "d1", ⟨⟨"u", "n"⟩⟩⟩, ⟨"m2", "a2", "d2", ⟨⟨"u", "n"⟩⟩⟩],
        ⟨"cur", true⟩⟩).commits
      = [⟨"m1", "a1", "d1", ⟨⟨"u", "n"⟩⟩⟩, ⟨"m2", "a2", "d2", ⟨⟨"u", "n"⟩⟩⟩]) :=
  ⟨((commit_boundary_pop ⟨[⟨"m1", "a1", "d1", ⟨⟨"u", "n"⟩⟩⟩, ⟨"m2", "a2", "d2", ⟨⟨"u", "n"⟩⟩⟩],
      ⟨"cur", false⟩⟩).1 rfl).1,
   ((commit_boundary_pop ⟨[⟨"m1", "a1", "d1", ⟨⟨"u", "n"⟩⟩⟩, ⟨"m2", "a2", "d2", ⟨⟨"u", "n"⟩⟩⟩],
      ⟨"cur", true⟩⟩).2 rfl).1⟩

/-! ### C8: hit/miss statistics -/

theorem statsGet_base {K V : Type} [DecidableEq K] (c : TTLCacheWithStats K V)
    (now : Nat) (key : K) (s : Bool) :
    ((TTLCacheWithStats.get c now key s).2).base = c.base := by
  by_cases h : (c.base.get now key s).isNull <;> simp [TTLCacheWithStats.get, h]

theorem statsGet_counters {K V : Type} [DecidableEq K] (c : TTLCacheWithStats K V)
    (now : Nat) (key : K) (s : Bool) :
    ((TTLCacheWithStats.get c now key s).2)._stats.hit
        = c._stats.hit + (if !(c.base.get now key s).isNull then 1 else 0) ∧
    ((TTLCacheWithStats.get c now key s).2)._stats.miss
        = c._stats.miss + (if !(c.base.get now key s).isNull then 0 else 1) := by
  by_cases h : (c.base.get now key s).isNull <;> simp [TTLCacheWithStats.get, h]

theorem runGets_base {K V : Type} [DecidableEq K] (gets : List (Nat × K × Bool)) :
    ∀ c : TTLCacheWithStats K V, (runGets c gets).base = c.base := by
  induction gets with
  | nil => intro c; rfl
  | cons g gs ih =>
      intro c
      show (runGets (TTLCacheWithStats.get c g.1 g.2.1 g.2.2).2 gs).base = c.base
      rw [ih, statsGet_base]

theorem runGets_hit {K V : Type} [DecidableEq K] (gets : List (Nat × K × Bool)) :
    ∀ c : TTLCacheWithStats K V,
      (runGets c gets)._stats.hit
        = c._stats.hit + gets.countP (fun g => !(c.base.get g.1 g.2.1 g.2.2).isNull) := by
  induction gets with
  | nil => intro c; simp [runGets]
  | cons g gs ih =>
      intro c
      show (runGets (TTLCacheWithStats.get c g.1 g.2.1 g.2.2).2 gs)._stats.hit = _
      rw [ih, statsGet_base, (statsGet_counters c g.1 g.2.1 g.2.2).1, List.countP_cons]
      by_cases h : (c.base.get g.1 g.2.1 g.2.2).isNull <;> simp [h] <;> omega

theorem runGets_miss {K V : Type} [DecidableEq K] (gets : List (Nat × K × Bool)) :
    ∀ c : TTLCacheWithStats K V,
      (runGets c gets)._stats.miss
        = c._stats.miss + gets.countP (fun g => (c.base.get g.1 g.2.1 g.2.2).isNull) := by
  induction gets with
  | nil => intro c; simp [runGets]
  | cons g gs ih =>
      intro c
      show (runGets (TTLCacheWithStats.get c g.1 g.2.1 g.2.2).2 gs)._stats.miss = _
      rw [ih, statsGet_base, (statsGet_counters c g.1 g.2.1 g.2.2).2, List.countP_cons]
      by_cases h : (c.base.get g.1 g.2.1 g.2.2).isNull <;> simp [h] <;> omega

theorem countP_hit_add_miss {K V : Type} [DecidableEq K]
    (c : TTLCacheWithStats K V) (gets : List (Nat × K × Bool)) :
    gets.length = gets.countP (fun g => !(c.base.get g.1 g.2.1 g.2.2).isNull)
      + gets.countP (fun g => (c.base.get g.1 g.2.1 g.2.2).isNull) := by
  induction gets with
  | nil => simp
  | cons g gs ih =>
      simp only [List.length_cons, List.countP_cons, ih]
      by_cases h : (c.base.get g.1 g.2.1 g.2.2).isNull <;> simp [h] <;> omega

/-- C8 (stats accuracy): starting from zeroed counters, after any
sequence of n get calls of which h return a present (non-null) value,
stats reports hit = h and miss = n - h; the base cache is unchanged by
the gets, and clearStats resets both counters to zero while leaving the
base cache (hence every subsequent get result) untouched. -/
theorem stats_accuracy {K V : Type} [DecidableEq K] (c : TTLCacheWithStats K V)
    (gets : List (Nat × K × Bool)) (h0 : c._stats = { hit := 0, miss := 0 }) :
    (runGets c gets).stats.hit
        = gets.countP (fun g => !(c.base.get g.1 g.2.1 g.2.2).isNull) ∧
    (runGets c gets).stats.miss
        = gets.length - gets.countP (fun g => !(c.base.get g.1 g.2.1 g.2.2).isNull) ∧
    (runGets c gets).base = c.base ∧
    ((runGets c gets).clearStats).stats = { hit := 0, miss := 0 } ∧
    ((runGets c gets).clearStats).base = (runGets c gets).base := by
  refine ⟨?_, ?_, runGets_base gets c, rfl, rfl⟩
  · show (runGets c gets)._stats.hit = _
    rw [runGets_hit gets c, h0]
    simp
  · show (runGets c gets)._stats.miss = _
    rw [runGets_miss gets c, h0]
    have hlen := countP_hit_add_miss c gets
    simp only [show ({ hit := 0, miss := 0 } : Stats).miss = 0 from rfl, Nat.zero_add]
    omega

/-- Witness for C8: three gets against a one-entry cache of ttl 10 with
one hit (fresh read) and two misses (expired read, absent key). -/
theorem stats_accuracy_witness :
    (runGets (⟨⟨[("x", ⟨0, 5⟩)], 10, none⟩, ⟨0, 0⟩⟩ : TTLCacheWithStats String Nat)
        [(1, "x", false), (20, "x", false), (5, "y", false)]).stats.hit = 1 ∧
    (runGets (⟨⟨[("x", ⟨0, 5⟩)], 10, none⟩, ⟨0, 0⟩⟩ : TTLCacheWithStats String Nat)
        [(1, "x", false), (20, "x", false), (5, "y", false)]).stats.miss = 2 := by
  have h := stats_accuracy (⟨⟨[("x", ⟨0, 5⟩)], 10, none⟩, ⟨0, 0⟩⟩ : TTLCacheWithStats String Nat)
      [(1, "x", false), (20, "x", false), (5, "y", false)] rfl
  exact ⟨by rw [h.1]; decide, by rw [h.2.1]; decide⟩

/-! ### C5: the commit condition of the commit sync -/

theorem firstSince_of_flatten_nil (ps : List (List Commit)) (h : ps.flatten = []) :
    firstSince ps = "" := by
  induction ps with
  | nil => rfl
  | cons p rest ih =>
      cases p with
      | nil =>
          simp only [List.flatten_cons, List.nil_append] at h
          exact ih h
      | cons c cs => simp at h

/-- C5 (amended commit condition): for a warm sync (a cached sync-state
record exists), the record is rewritten (new since, old commits followed
by the new ones) and persisted exactly when the newly computed since
marker — the committedDate of the first commit of the first non-empty
processed page — is non-empty and differs from the stored marker; in
particular, when the fetcher yields no new commits nothing is committed
and the caller receives exactly the cached commits. -/
theorem commits_persist_condition (e : CommitEntry) (bootSince : String)
    (pages : List HistoryPage) :
    ((getCommits (some e) bootSince pages).committed =
       if firstSince (commitsFetchLoop pages) ≠ "" ∧
          firstSince (commitsFetchLoop pages) ≠ e.since
       then some { since := firstSince (commitsFetchLoop pages),
                   commits := e.commits ++ (commitsFetchLoop pages).flatten }
       else none) ∧
    ((commitsFetchLoop pages).flatten = [] →
       (getCommits (some e) bootSince pages).committed = none ∧
       (getCommits (some e) bootSince pages).yielded = e.commits) := by
  constructor
  · by_cases h1 : firstSince (commitsFetchLoop pages) = "" <;>
      by_cases h2 : firstSince (commitsFetchLoop pages) = e.since <;>
        simp [getCommits, h1, h2]
  · intro h
    have hfs : firstSince (commitsFetchLoop pages) = "" :=
      firstSince_of_flatten_nil _ h
    constructor <;> simp [getCommits, hfs, h]

/-- Witness for the amended C5 statement: a warm sync whose single final
page is empty commits nothing and yields just the cached commits. -/
theorem commits_persist_condition_witness :
    ((getCommits (some ⟨"M", [⟨"o", "a", "M", ⟨⟨"u", "U"⟩⟩⟩]⟩) "B"
        [⟨[], ⟨"", false⟩⟩]).committed = none) ∧
    ((getCommits (some ⟨"M", [⟨"o", "a", "M", ⟨⟨"u", "U"⟩⟩⟩]⟩) "B"
        [⟨[], ⟨"", false⟩⟩]).yielded = [⟨"o", "a", "M", ⟨⟨"u", "U"⟩⟩⟩]) :=
  (commits_persist_condition ⟨"M", [⟨"o", "a", "M", ⟨⟨"u", "U"⟩⟩⟩]⟩ "B"
      [⟨[], ⟨"", false⟩⟩]).2 (by decide)

/-- Counterexample to C5 as stated: a warm sync with stored marker "M"
and one cached commit; the single final page carries a genuinely new
commit (oid "b", not in the cached sequence) whose committedDate equals
"M", plus the boundary commit which is popped.  The new commit is
observed and yielded, yet nothing is persisted, because the recomputed
since marker equals the stored one. -/
theorem commits_persist_counterexample :
    ((getCommits (some ⟨"M", [⟨"o", "a", "M", ⟨⟨"u", "U"⟩⟩⟩]⟩) ""
        [⟨[⟨"n", "b", "M", ⟨⟨"u", "U"⟩⟩⟩, ⟨"o", "a", "M", ⟨⟨"u", "U"⟩⟩⟩], ⟨"cur", false⟩⟩]).committed
      = none) ∧
    ((getCommits (some ⟨"M", [⟨"o", "a", "M", ⟨⟨"u", "U"⟩⟩⟩]⟩) ""
        [⟨[⟨"n", "b", "M", ⟨⟨"u", "U"⟩⟩⟩, ⟨"o", "a", "M", ⟨⟨"u", "U"⟩⟩⟩], ⟨"cur", false⟩⟩]).yielded
      = [⟨"o", "a", "M", ⟨⟨"u", "U"⟩⟩⟩, ⟨"n", "b", "M", ⟨⟨"u", "U"⟩⟩⟩]) ∧
    (⟨"n", "b", "M", ⟨⟨"u", "U"⟩⟩⟩ : Commit) ∉ [(⟨"o", "a", "M", ⟨⟨"u", "U"⟩⟩⟩ : Commit)] := by
  refine ⟨?_, ?_, ?_⟩ <;> decide

/-! ### C6: order and dedup of resumed syncs -/

theorem yieldNewLogins_snd : ∀ (cs : List Comment) (seen : List String),
    (yieldNewLogins seen cs).2 = seen ++ (yieldNewLogins seen cs).1 := by
  intro cs
  induction cs with
  | nil => intro seen; simp [yieldNewLogins]
  | cons c cs ih =>
      intro seen
      by_cases h : c.user.login ∈ seen
      · simp only [yieldNewLogins, if_pos h]
        exact ih seen
      · simp only [yieldNewLogins, if_neg h]
        rw [ih (seen ++ [c.user.login])]
        simp

theorem yieldNewLogins_nodup : ∀ (cs : List Comment) (seen : List String),
    seen.Nodup → (yieldNewLogins seen cs).2.Nodup := by
  intro cs
  induction cs with
  | nil => intro seen h; simpa [yieldNewLogins] using h
  | cons c cs ih =>
      intro seen h
      by_cases hm : c.user.login ∈ seen
      · simp only [yieldNewLogins, if_pos hm]
        exact ih seen h
      · simp only [yieldNewLogins, if_neg hm]
        exact ih (seen ++ [c.user.login]) (by simp [List.nodup_append, h, hm])

theorem commentorsPages_snd : ∀ (pgs : List (List Comment)) (seen : List String),
    (commentorsPages seen pgs).2 = seen ++ (commentorsPages seen pgs).1 := by
  intro pgs
  induction pgs with
  | nil => intro seen; simp [commentorsPages]
  | cons pg rest ih =>
      intro seen
      simp only [commentorsPages]
      rw [ih (yieldNewLogins seen pg).2, yieldNewLogins_snd]
      simp

theorem commentorsPages_nodup : ∀ (pgs : List (List Comment)) (seen : List String),
    seen.Nodup → (commentorsPages seen pgs).2.Nodup := by
  intro pgs
  induction pgs with
  | nil => intro seen h; simpa [commentorsPages] using h
  | cons pg rest ih =>
      intro seen h
      simp only [commentorsPages]
      exact ih (yieldNewLogins seen pg).2 (yieldNewLogins_nodup pg seen h)

/-- C6 (amended order and dedup): in both resumed syncs the previously
observed items are yielded first, in their stored order, before any page
item.  In the commentor sync the seen-set dedup guarantees each login is
delivered at most once per call (given the persisted list is itself
duplicate-free).  In the commit sync no identity-based dedup exists: the
yielded sequence is exactly the cached commits followed by every
processed page item, so only the final-page boundary pop prevents
re-delivery. -/
theorem resumed_sync_order_and_dedup
    (persisted : Option PersistantCacheEntry) (defaultEndpoint : String)
    (pages : List (List Comment)) (cached : Option CommitEntry)
    (bootSince : String) (cpages : List HistoryPage)
    (hnd : ((persisted.getD { commentors := [], endpoint := defaultEndpoint }).commentors).Nodup) :
    ((getIssueCommentorsCore persisted defaultEndpoint pages).1).Nodup ∧
    (getCommits cached bootSince cpages).yielded =
      (cached.getD { since := bootSince, commits := [] }).commits
        ++ (commitsFetchLoop cpages).flatten := by
  constructor
  · have hs := commentorsPages_snd pages
      ((persisted.getD { commentors := [], endpoint := defaultEndpoint }).commentors)
    have hn := commentorsPages_nodup pages
      ((persisted.getD { commentors := [], endpoint := defaultEndpoint }).commentors) hnd
    show ((persisted.getD { commentors := [], endpoint := defaultEndpoint }).commentors ++
        (commentorsPages
          (persisted.getD { commentors := [], endpoint := defaultEndpoint }).commentors
          pages).1).Nodup
    rw [← hs]
    exact hn
  · cases cached <;> simp [getCommits]

/-- Witness for the amended C6 statement: a resumed commentor sync with
persisted logins a, b and one page containing b again plus a new login c
yields a, b, c with no duplicate; a cold commit sync over no pages
yields nothing. -/
theorem resumed_sync_order_and_dedup_witness :
    ((getIssueCommentorsCore (some ⟨["a", "b"], "ep"⟩) "d"
        [[⟨⟨"b"⟩, "t1", "NONE"⟩, ⟨⟨"c"⟩, "t2", "NONE"⟩]]).1).Nodup ∧
    (getCommits none "B" []).yielded = [] := by
  have h := resumed_sync_order_and_dedup (some ⟨["a", "b"], "ep"⟩) "d"
      [[⟨⟨"b"⟩, "t1", "NONE"⟩, ⟨⟨"c"⟩, "t2", "NONE"⟩]] none "B" [] (by decide)
  exact ⟨h.1, h.2⟩

/-- Counterexample to C6 as stated: a resumed commit sync whose stored
record holds two commits sharing the marker timestamp "M".  The final
fetched page returns both again; the boundary pop removes only the last
one, so the head commit (oid "hh") is delivered twice in one call —
items are not deduplicated by commit identifier. -/
theorem commits_duplicate_counterexample :
    (((getCommits (some ⟨"M", [⟨"h", "hh", "M", ⟨⟨"u", "U"⟩⟩⟩, ⟨"p", "pp", "M", ⟨⟨"u", "U"⟩⟩⟩]⟩) ""
        [⟨[⟨"h", "hh", "M", ⟨⟨"u", "U"⟩⟩⟩, ⟨"p", "pp", "M", ⟨⟨"u", "U"⟩⟩⟩], ⟨"e", false⟩⟩]).yielded.map
          fun c => c.abbreviatedOid) = ["hh", "pp", "hh"]) ∧
    ¬ (((getCommits (some ⟨"M", [⟨"h", "hh", "M", ⟨⟨"u", "U"⟩⟩⟩, ⟨"p", "pp", "M", ⟨⟨"u", "U"⟩⟩⟩]⟩) ""
        [⟨[⟨"h", "hh", "M", ⟨⟨"u", "U"⟩⟩⟩, ⟨"p", "pp", "M", ⟨⟨"u", "U"⟩⟩⟩], ⟨"e", false⟩⟩]).yielded.map
          fun c => c.abbreviatedOid).Nodup) := by
  constructor <;> decide

/-! ### C10: the undefined guard of getIssueCommentors -/

/-- C10 (null fast-path TypeError): TTLCache.get never returns
undefined, so for every key that is not fresh in the in-memory cache the
guard (cached !== undefined) is satisfied with a null value and the
function throws a TypeError on yield* before the durable cache or the
remote fetch is ever reached. -/
theorem commentors_null_guard_typeError
    (c : TTLCache String (List String)) (now : Nat) (key : String)
    (h : c.get now key false = JSVal.null) :
    getIssueCommentorsEntry (c.get now key false) = CommentorsOutcome.typeError ∧
    ∀ stale : Bool, c.get now key stale ≠ JSVal.undefined := by
  constructor
  · rw [h]
    rfl
  · intro s
    unfold TTLCache.get
    split
    · simp
    · split <;> simp

/-- Witness for C10: the commentors cache (ttl seven days) with no fresh
entry for the key makes the entry guard throw. -/
theorem commentors_null_guard_typeError_witness :
    getIssueCommentorsEntry
        ((⟨[], 604800000, none⟩ : TTLCache String (List String)).get 0 "w3c-respec" false)
      = CommentorsOutcome.typeError ∧
    (⟨[], 604800000, none⟩ : TTLCache String (List String)).get 0 "w3c-respec" true
      ≠ JSVal.undefined :=
  ⟨(commentors_null_guard_typeError ⟨[], 604800000, none⟩ 0 "w3c-respec" rfl).1,
   (commentors_null_guard_typeError ⟨[], 604800000, none⟩ 0 "w3c-respec" rfl).2 true⟩
